import Mathlib

/-!
Verification development for the Grover search core
(src/Cirq/CirqOracles/Grover/grover.py).

The embedding models a circuit as an ordered, append-only list of
operations over named qubits; oracles are functions that receive the
circuit under construction together with the register, an auxiliary
flip-target qubit and an oracle-specific argument object, and return the
extended circuit (mirroring the Python calling convention in which the
oracle mutates the circuit in place).  The execution collaborator
(cirq.Simulator) is modelled as an abstract function from a completed
circuit and a trial count to per-measurement-key histograms.

The helper modules utility.py (run_flip_marker_as_phase_marker) and
oracles.py (check_if_all_zeros) are imported by grover.py but are not part
of this repository's sources; their definitions below are modelled from
the specification's description of the Oracle Adapter and of the fixed
internal all-zero predicate, and are marked as such.
-/

namespace Grover

/-- A named qubit, as produced by cirq.NamedQubit: identified by its name. -/
structure Qubit where
  name : String
deriving DecidableEq, Repr

/-- One operation of a circuit.  The core appends uniform-superposition
gates (cirq.H), bit-flip gates (cirq.X, used by the modelled adapter and
all-zero oracle), multi-controlled flips (used by the modelled all-zero
oracle) and tagged measurements (cirq.measure_each, whose key is the
measured qubit's name). -/
inductive Op where
  | h (q : Qubit)
  | x (q : Qubit)
  | mcx (controls : List Qubit) (target : Qubit)
  | measure (q : Qubit)
deriving DecidableEq, Repr

/-- A marking oracle in the Python calling convention: it takes the circuit
being constructed, the register, the auxiliary flip-target qubit and an
oracle-specific argument object, and returns the (extended) circuit. -/
abbrev MarkingOracle (α : Type) := List Op → List Qubit → Qubit → α → List Op

/-- The auxiliary qubit temporarily borrowed by the Oracle Adapter.
Modelled from the spec: the adapter allocates one auxiliary qubit; its
concrete name is internal to the missing utility module. -/
def auxName : String := "phase_marker_target"

/-- The auxiliary flip-target qubit used by the Oracle Adapter. -/
def auxQubit : Qubit := Qubit.mk auxName

/-- Modelled from the spec: utility.run_flip_marker_as_phase_marker, the
Oracle Adapter (its source, utility.py, is not in the repository).  It
appends: a flip and a superposition transform bringing the freshly
allocated auxiliary qubit from the zero state to the equal superposition
with a phase difference, then the marking oracle with the auxiliary qubit
as flip target, then the inverse transformation restoring the auxiliary
qubit. -/
def run_flip_marker_as_phase_marker {α : Type} (circuit : List Op)
    (oracle : MarkingOracle α) (qubits : List Qubit) (oracle_args : α) : List Op :=
  let c1 := circuit ++ [Op.x auxQubit, Op.h auxQubit]
  let c2 := oracle c1 qubits auxQubit oracle_args
  c2 ++ [Op.h auxQubit, Op.x auxQubit]

/-- Modelled from the spec: oracles.check_if_all_zeros, the fixed internal
all-zero predicate used by the diffusion step (its source, oracles.py, is
not in the repository).  It flips the target exactly when every register
qubit is zero, via the standard flip-conjugated multi-controlled flip; it
ignores its oracle argument (the caller passes None). -/
def check_if_all_zeros : MarkingOracle (Option Unit) :=
  fun circuit qubits target _ =>
    circuit ++ qubits.map Op.x ++ [Op.mcx qubits target] ++ qubits.map Op.x

/-- grover.py, grover_iteration (lines 32-54): one round of Grover's
algorithm, the phase-marked caller oracle followed by the diffusion
operator (H layer, phase-marked all-zero predicate with None as its
argument, H layer). -/
def grover_iteration {α : Type} (circuit : List Op) (oracle : MarkingOracle α)
    (qubits : List Qubit) (oracle_args : α) : List Op :=
  let c1 := run_flip_marker_as_phase_marker circuit oracle qubits oracle_args
  let c2 := c1 ++ qubits.map Op.h
  let c3 := run_flip_marker_as_phase_marker c2 check_if_all_zeros qubits none
  c3 ++ qubits.map Op.h

/-- The iteration count of grover_search (grover.py line 75):
round(2 ** (len(qubits) / 2)), in executable integer arithmetic.  For even
n the value 2^(n/2) is an exact integer; for odd n it equals
2^((n-1)/2) * sqrt 2, whose nearest integer is computed from the integer
square root of 2^(n+2) (round x = floor ((2x+1)/2), and
floor (2 * 2^(n/2)) = Nat.sqrt (2^(n+2))).  The theorem for claim C1
proves this equal to the real-valued rounding written in the source; the
value is never a half-integer, so round-half-up and Python's
round-half-to-even agree. -/
def groverIterations (n : ℕ) : ℕ :=
  if n % 2 = 0 then 2 ^ (n / 2) else (Nat.sqrt (2 ^ (n + 2)) + 1) / 2

/-- The for loop of grover_search (grover.py lines 76-77): apply
grover_iteration the given number of times to the circuit. -/
def groverLoop {α : Type} : ℕ → List Op → MarkingOracle α → List Qubit → α → List Op
  | 0, circuit, _, _, _ => circuit
  | n + 1, circuit, oracle, qubits, oracle_args =>
      groverLoop n (grover_iteration circuit oracle qubits oracle_args) oracle qubits oracle_args

/-- grover.py, grover_search (lines 57-77): an H gate on every register
qubit, then round(2 ** (len(qubits) / 2)) Grover iterations. -/
def grover_search {α : Type} (circuit : List Op) (oracle : MarkingOracle α)
    (qubits : List Qubit) (oracle_args : α) : List Op :=
  groverLoop (groverIterations qubits.length) (circuit ++ qubits.map Op.h)
    oracle qubits oracle_args

/-- The name shared by the register-qubit naming and the measurement keys
of run_grover_search (grover.py lines 99 and 111). -/
def qubitNamePre : String := "qubit"

/-- The measurement key used for output index i (grover.py line 111). -/
def qubitKey (i : ℕ) : String := qubitNamePre ++ toString i

/-- cirq.NamedQubit.range(n, prefix=pre): qubits named pre0 .. pre(n-1). -/
def namedQubitRange (n : ℕ) (pre : String) : List Qubit :=
  (List.range n).map (fun i => Qubit.mk (pre ++ toString i))

/-- The register allocated by run_grover_search (grover.py line 99). -/
def searchQubits (n : ℕ) : List Qubit := namedQubitRange n qubitNamePre

/-- cirq.measure_each(*qubits): one tagged measurement per qubit, keyed by
the qubit's name (grover.py line 102). -/
def measure_each (qubits : List Qubit) : List Op := qubits.map Op.measure

/-- The execution collaborator's response: for each measurement key, a
histogram of sampled classical outcomes with their trial counts, in the
order the collaborator returns them (result.histogram(key=...)). -/
structure RunResult where
  histogram : String → List (ℕ × ℕ)

/-- The execution collaborator (cirq.Simulator().run): a completed circuit
and a repetition count produce one sampling result. -/
abbrev Simulator := List Op → ℕ → RunResult

/-- The decoding applied to one key's histogram by run_grover_search
(grover.py lines 112-114): the state of the first histogram entry, or the
pre-initialized 0 when the histogram is empty. -/
def headState (hist : List (ℕ × ℕ)) : ℕ :=
  match hist with
  | [] => 0
  | (state, _) :: _ => state

/-- The circuit run_grover_search submits (grover.py lines 99-102): the
full search over the freshly allocated register, followed by one tagged
measurement per register qubit. -/
def builtCircuit {α : Type} (n : ℕ) (oracle : MarkingOracle α) (oracle_args : α) : List Op :=
  grover_search [] oracle (searchQubits n) oracle_args ++ measure_each (searchQubits n)

/-- grover.py, run_grover_search (lines 80-116): build the circuit, run it
for exactly one trial, and decode the answer bit vector from the sampled
outcomes: the answer is pre-initialized to n zeros, and for each index i
the first histogram entry under key qubit{i}, when present, overwrites
index i. -/
def run_grover_search {α : Type} (number_of_qubits : ℕ) (oracle : MarkingOracle α)
    (oracle_args : α) (simulator : Simulator) : List ℕ :=
  let result := simulator (builtCircuit number_of_qubits oracle oracle_args) 1
  (List.range number_of_qubits).foldl
    (fun solution i =>
      match result.histogram (qubitKey i) with
      | [] => solution
      | (state, _) :: _ => solution.set i state)
    (List.replicate number_of_qubits 0)

/-- The marking-oracle contract of the spec (section 3): a conforming
oracle only appends operations to the circuit, and what it appends is
determined by the register, the flip target and the oracle argument. -/
def AppendsOnly {α : Type} (oracle : MarkingOracle α) : Prop :=
  ∃ g : List Qubit → Qubit → α → List Op,
    ∀ circuit qubits target args, oracle circuit qubits target args = circuit ++ g qubits target args

/-- A tiny conforming marking oracle used to instantiate hypotheses in
witnesses: it flips the target unconditionally. -/
def xOracle : MarkingOracle Unit := fun circuit _ target _ => circuit ++ [Op.x target]

/-- A simulator returning the same histogram for every key, used in
witnesses. -/
def constHistSim (hist : List (ℕ × ℕ)) : Simulator := fun _ _ => RunResult.mk (fun _ => hist)

/-- Amplitudes in the ring of rationals adjoined a square root of two:
the pair (a, b) stands for a + b * sqrt 2.  This suffices for exact
amplitude bookkeeping of the Oracle Adapter, whose gates only introduce
factors of 1 / sqrt 2. -/
abbrev Amp := ℚ × ℚ

/-- Addition of amplitudes: componentwise. -/
def ampAdd (u v : Amp) : Amp := (u.1 + v.1, u.2 + v.2)

/-- Negation of amplitudes: componentwise. -/
def ampNeg (u : Amp) : Amp := (-u.1, -u.2)

/-- The zero amplitude. -/
def ampZero : Amp := (0, 0)

/-- Multiplication of an amplitude by 1 / sqrt 2:
(a + b sqrt 2) / sqrt 2 = b + (a / 2) sqrt 2. -/
def ampInvSqrt2 (u : Amp) : Amp := (u.2, u.1 / 2)

/-- A joint state of the register (with basis states drawn from an
arbitrary index type) and the single auxiliary qubit, as an amplitude for
each basis vector. -/
abbrev Joint (ν : Type) := ν → Bool → Amp

/-- The bit-flip gate on the auxiliary qubit: swaps the two auxiliary
basis amplitudes. -/
def applyXaux {ν : Type} (A : Joint ν) : Joint ν := fun x b => A x (!b)

/-- The Hadamard (uniform-superposition) gate on the auxiliary qubit:
new amplitude at 0 is (old 0 + old 1) / sqrt 2, at 1 is
(old 0 - old 1) / sqrt 2. -/
def applyHaux {ν : Type} (A : Joint ν) : Joint ν := fun x b =>
  ampInvSqrt2 (ampAdd (A x false) (if b then ampNeg (A x true) else A x true))

/-- The semantic effect of a marking oracle for predicate f: it flips the
auxiliary flag exactly on register basis states satisfying f, permuting
basis amplitudes accordingly. -/
def markingSem {ν : Type} (f : ν → Bool) (A : Joint ν) : Joint ν :=
  fun x b => A x (xor b (f x))

/-- Modelled from the spec: the net semantic effect of the operations the
Oracle Adapter (run_flip_marker_as_phase_marker) appends, in their order:
flip the auxiliary qubit, superpose it, run the marking oracle with the
auxiliary qubit as flip target, then undo the superposition and the flip. -/
def adapterNet {ν : Type} (oracleSem : Joint ν → Joint ν) (A : Joint ν) : Joint ν :=
  applyXaux (applyHaux (oracleSem (applyHaux (applyXaux A))))

/-- The joint state in which the register carries amplitudes psi and the
auxiliary qubit is in its initial zero state, unentangled. -/
def withFreshAux {ν : Type} (psi : ν → Amp) : Joint ν :=
  fun x b => if b then ampZero else psi x

/-- One step of the decoding loop of run_grover_search (grover.py lines
110-114), abstracted over the per-index histogram lookup: keep the answer
unchanged when the histogram is empty, otherwise overwrite index j with
the first sampled state. -/
def decodeStep (f : ℕ → List (ℕ × ℕ)) (sol : List ℕ) (j : ℕ) : List ℕ :=
  match f j with
  | [] => sol
  | (state, _) :: _ => sol.set j state

/-- The Oracle Adapter prepends the incoming circuit unchanged: with a
conforming (append-only) oracle, its result is the incoming circuit
followed by the operations it would append to an empty circuit. -/
theorem run_flip_append {α : Type} {oracle : MarkingOracle α} (h : AppendsOnly oracle)
    (circuit : List Op) (qubits : List Qubit) (args : α) :
    run_flip_marker_as_phase_marker circuit oracle qubits args
      = circuit ++ run_flip_marker_as_phase_marker [] oracle qubits args := by
  obtain ⟨g, hg⟩ := h
  simp [run_flip_marker_as_phase_marker, hg]

/-- The modelled all-zero predicate conforms to the append-only
marking-oracle contract. -/
theorem check_if_all_zeros_appendsOnly : AppendsOnly check_if_all_zeros := by
  refine ⟨fun qubits target _ =>
    qubits.map Op.x ++ [Op.mcx qubits target] ++ qubits.map Op.x, ?_⟩
  intro circuit qubits target args
  simp [check_if_all_zeros]

/-- One Grover round prepends the incoming circuit unchanged. -/
theorem grover_iteration_append {α : Type} {oracle : MarkingOracle α} (h : AppendsOnly oracle)
    (circuit : List Op) (qubits : List Qubit) (args : α) :
    grover_iteration circuit oracle qubits args
      = circuit ++ grover_iteration [] oracle qubits args := by
  obtain ⟨g, hg⟩ := h
  simp [grover_iteration, run_flip_marker_as_phase_marker, check_if_all_zeros, hg]

/-- The search loop appends one identical round per count to the incoming
circuit. -/
theorem groverLoop_append {α : Type} {oracle : MarkingOracle α} (h : AppendsOnly oracle) :
    ∀ (n : ℕ) (circuit : List Op) (qubits : List Qubit) (args : α),
    groverLoop n circuit oracle qubits args
      = circuit ++ (List.replicate n (grover_iteration [] oracle qubits args)).flatten := by
  intro n
  induction n with
  | zero => intro circuit qubits args; simp [groverLoop]
  | succ m ih =>
      intro circuit qubits args
      simp only [groverLoop]
      rw [ih, grover_iteration_append h]
      simp only [List.replicate_succ, List.flatten_cons, List.append_assoc]

/-- The full search: the incoming circuit, then the uniform-superposition
layer, then the computed number of identical rounds. -/
theorem grover_search_append {α : Type} {oracle : MarkingOracle α} (h : AppendsOnly oracle)
    (circuit : List Op) (qubits : List Qubit) (args : α) :
    grover_search circuit oracle qubits args
      = circuit ++ qubits.map Op.h
          ++ (List.replicate (groverIterations qubits.length)
                (grover_iteration [] oracle qubits args)).flatten := by
  rw [grover_search, groverLoop_append h]

/-- C4: for every circuit, conforming oracle, qubit register, and oracle
arguments, one call to grover_iteration appends, in this order: the
phase-marked caller oracle over the register, a Hadamard gate on every
register qubit, the phase-marked fixed internal all-zero predicate (a
segment mentioning neither the caller's oracle nor its arguments), and a
Hadamard gate on every register qubit again. -/
theorem grover_iteration_structure {α : Type} (oracle : MarkingOracle α)
    (h : AppendsOnly oracle) (circuit : List Op) (qubits : List Qubit) (oracle_args : α) :
    grover_iteration circuit oracle qubits oracle_args
      = circuit
          ++ run_flip_marker_as_phase_marker [] oracle qubits oracle_args
          ++ qubits.map Op.h
          ++ run_flip_marker_as_phase_marker [] check_if_all_zeros qubits none
          ++ qubits.map Op.h := by
  obtain ⟨g, hg⟩ := h
  simp [grover_iteration, run_flip_marker_as_phase_marker, check_if_all_zeros, hg]

/-- Witness for C4 at a concrete input: the append-only oracle that flips
its target, on the one-qubit register. -/
theorem grover_iteration_structure_witness :
    AppendsOnly xOracle ∧
      grover_iteration [] xOracle (searchQubits 1) ()
        = [] ++ run_flip_marker_as_phase_marker [] xOracle (searchQubits 1) ()
            ++ (searchQubits 1).map Op.h
            ++ run_flip_marker_as_phase_marker [] check_if_all_zeros (searchQubits 1) none
            ++ (searchQubits 1).map Op.h :=
  ⟨⟨fun _ target _ => [Op.x target], fun _ _ _ _ => rfl⟩,
   grover_iteration_structure xOracle
     ⟨fun _ target _ => [Op.x target], fun _ _ _ _ => rfl⟩ [] (searchQubits 1) ()⟩

/-- C5: for every circuit, conforming oracle, qubit register, and oracle
arguments, grover_search first appends a Hadamard gate to every register
qubit and only then appends the computed number of Grover rounds, each
round being exactly the operations grover_iteration appends for the same
oracle, register, and oracle arguments. -/
theorem grover_search_structure {α : Type} (oracle : MarkingOracle α)
    (h : AppendsOnly oracle) (circuit : List Op) (qubits : List Qubit) (oracle_args : α) :
    grover_search circuit oracle qubits oracle_args
      = circuit ++ qubits.map Op.h
          ++ (List.replicate (groverIterations qubits.length)
                (grover_iteration [] oracle qubits oracle_args)).flatten :=
  grover_search_append h circuit qubits oracle_args

/-- Witness for C5 at a concrete input. -/
theorem grover_search_structure_witness :
    AppendsOnly xOracle ∧
      grover_search [] xOracle (searchQubits 1) ()
        = [] ++ (searchQubits 1).map Op.h
            ++ (List.replicate (groverIterations (searchQubits 1).length)
                  (grover_iteration [] xOracle (searchQubits 1) ())).flatten :=
  ⟨⟨fun _ target _ => [Op.x target], fun _ _ _ _ => rfl⟩,
   grover_search_structure xOracle
     ⟨fun _ target _ => [Op.x target], fun _ _ _ _ => rfl⟩ [] (searchQubits 1) ()⟩

/-- C8: grover_iteration and grover_search only append operations to the
circuit: the circuit's existing prefix is unchanged by both.  (Both are
pure circuit constructions in the embedding: neither mentions the
execution collaborator, and the register list is never rebuilt.) -/
theorem grover_append_only_frame {α : Type} (oracle : MarkingOracle α)
    (h : AppendsOnly oracle) (circuit : List Op) (qubits : List Qubit) (oracle_args : α) :
    (∃ tail, grover_iteration circuit oracle qubits oracle_args = circuit ++ tail) ∧
    (∃ tail, grover_search circuit oracle qubits oracle_args = circuit ++ tail) :=
  ⟨⟨grover_iteration [] oracle qubits oracle_args,
      grover_iteration_append h circuit qubits oracle_args⟩,
   ⟨qubits.map Op.h
      ++ (List.replicate (groverIterations qubits.length)
            (grover_iteration [] oracle qubits oracle_args)).flatten,
    by rw [grover_search_append h circuit qubits oracle_args]; simp⟩⟩

/-- The integer square root of 8, computed through its characterization
(Nat.sqrt is not kernel-reducible). -/
theorem sqrt_eight : Nat.sqrt 8 = 2 := by
  have h1 : 2 ≤ Nat.sqrt 8 := Nat.le_sqrt.mpr (by norm_num)
  have h2 : Nat.sqrt 8 < 3 := Nat.sqrt_lt.mpr (by norm_num)
  omega

/-- The executable iteration count at one qubit. -/
theorem groverIterations_one : groverIterations 1 = 1 := by
  have h8 : (2 : ℕ) ^ (1 + 2) = 8 := by norm_num
  rw [groverIterations, if_neg (by omega), h8, sqrt_eight]

/-- An odd power of two is not a perfect square. -/
theorem sq_ne_two_pow_odd (s k : ℕ) : s ^ 2 ≠ 2 ^ (2 * k + 3) := by
  intro heq
  have hs : s ∣ 2 ^ (2 * k + 3) := heq ▸ dvd_pow_self s (by norm_num : 2 ≠ 0)
  obtain ⟨j, hjle, rfl⟩ := (Nat.dvd_prime_pow Nat.prime_two).mp hs
  rw [← pow_mul] at heq
  have := Nat.pow_right_injective (le_refl 2) heq
  omega

/-- C1: for every register size n, the executable iteration count used by
grover_search equals round(2 ^ (n / 2)), the real-valued rounding written
on line 75 of the source (the value is never a half-integer, so this also
agrees with Python's round-half-to-even); in particular it is 4 at n = 4,
8 at n = 6, and 1 at n = 1. -/
theorem iteration_count_eq_round (n : ℕ) :
    (groverIterations n : ℤ) = round ((2 : ℝ) ^ ((n : ℝ) / 2)) ∧
      groverIterations 4 = 4 ∧ groverIterations 6 = 8 ∧ groverIterations 1 = 1 := by
  refine ⟨?_, by decide, by decide, groverIterations_one⟩
  rcases Nat.even_or_odd n with he | ho
  · obtain ⟨k, hk⟩ := he
    subst hk
    have h0 : (k + k) % 2 = 0 := by omega
    have h1 : (k + k) / 2 = k := by omega
    have h2 : ((k + k : ℕ) : ℝ) / 2 = ((k : ℕ) : ℝ) := by push_cast; ring
    rw [groverIterations, if_pos h0, h1, h2, Real.rpow_natCast]
    rw [show ((2 : ℝ) ^ k) = (((2 ^ k : ℕ)) : ℝ) by push_cast; ring]
    rw [round_natCast]
  · obtain ⟨k, hk⟩ := ho
    subst hk
    have h0 : ¬((2 * k + 1) % 2 = 0) := by omega
    have e1 : 2 * k + 1 + 2 = 2 * k + 3 := by omega
    rw [groverIterations, if_neg h0, e1]
    set s := Nat.sqrt (2 ^ (2 * k + 3)) with hs_def
    set q := (s + 1) / 2 with hq_def
    have hexp : ((2 * k + 1 : ℕ) : ℝ) / 2 = (k : ℝ) + 1 / 2 := by push_cast; ring
    rw [hexp]
    have hy : (2 : ℝ) ^ ((k : ℝ) + 1 / 2) = 2 ^ k * Real.sqrt 2 := by
      rw [Real.rpow_add (by norm_num), Real.rpow_natCast, ← Real.sqrt_eq_rpow]
    rw [hy]
    have hs1 : s ^ 2 ≤ 2 ^ (2 * k + 3) := by
      have := Nat.sqrt_le' (2 ^ (2 * k + 3)); rwa [← hs_def] at this
    have hs2 : 2 ^ (2 * k + 3) < (s + 1) ^ 2 := by
      have := Nat.lt_succ_sqrt' (2 ^ (2 * k + 3)); rwa [← hs_def] at this
    have hsq : (2 * ((2 : ℝ) ^ k * Real.sqrt 2)) ^ 2 = ((2 ^ (2 * k + 3) : ℕ) : ℝ) := by
      have h2 : (Real.sqrt 2) ^ 2 = 2 := Real.sq_sqrt (by norm_num)
      calc (2 * ((2 : ℝ) ^ k * Real.sqrt 2)) ^ 2
          = ((2 : ℝ) ^ k) ^ 2 * (Real.sqrt 2 ^ 2) * 4 := by ring
        _ = ((2 : ℝ) ^ k) ^ 2 * 2 * 4 := by rw [h2]
        _ = ((2 ^ (2 * k + 3) : ℕ) : ℝ) := by push_cast; ring
    have hle : (s : ℝ) ≤ 2 * ((2 : ℝ) ^ k * Real.sqrt 2) := by
      have h1 : ((s : ℝ)) ^ 2 ≤ (2 * ((2 : ℝ) ^ k * Real.sqrt 2)) ^ 2 := by
        rw [hsq]; exact_mod_cast hs1
      have h3 := Real.sqrt_le_sqrt h1
      rwa [Real.sqrt_sq (by positivity), Real.sqrt_sq (by positivity)] at h3
    have hltu : 2 * ((2 : ℝ) ^ k * Real.sqrt 2) < (s : ℝ) + 1 := by
      have h1 : (2 * ((2 : ℝ) ^ k * Real.sqrt 2)) ^ 2 < ((s : ℝ) + 1) ^ 2 := by
        rw [hsq]; exact_mod_cast hs2
      have h3 := Real.sqrt_lt_sqrt (by positivity) h1
      rwa [Real.sqrt_sq (by positivity), Real.sqrt_sq (by positivity)] at h3
    have hne : (s : ℝ) ≠ 2 * ((2 : ℝ) ^ k * Real.sqrt 2) := by
      intro heq
      have h1 : ((s : ℝ)) ^ 2 = ((2 ^ (2 * k + 3) : ℕ) : ℝ) := by rw [heq, hsq]
      have h2 : s ^ 2 = 2 ^ (2 * k + 3) := by exact_mod_cast h1
      exact sq_ne_two_pow_odd s k h2
    have hlt : (s : ℝ) < 2 * ((2 : ℝ) ^ k * Real.sqrt 2) := lt_of_le_of_ne hle hne
    rw [round_eq]
    symm
    rw [Int.floor_eq_iff]
    constructor
    · have hn1 : 2 * q ≤ s + 1 := by rw [hq_def]; omega
      have h4 : 2 * (q : ℝ) ≤ (s : ℝ) + 1 := by exact_mod_cast hn1
      push_cast
      linarith
    · have hn2 : s ≤ 2 * q := by rw [hq_def]; omega
      have h4 : (s : ℝ) ≤ 2 * (q : ℝ) := by exact_mod_cast hn2
      push_cast
      linarith

/-- C2 counterexample: contrary to the claim that a zero-qubit register
yields zero iterations, the code's iteration count at n = 0 is
round(2 ^ 0) = 1, not 0. -/
theorem zero_qubit_iterations_ne_zero : groverIterations 0 ≠ 0 := by decide

/-- C2 amended: for a zero-qubit register, the search performs one Grover
iteration (round(2 ^ (0 / 2)) = round 1 = 1), and run_grover_search
returns an empty answer vector without raising an error (in the embedding
every function involved is total, and the decoding loop over zero indices
returns the empty pre-initialized vector). -/
theorem zero_qubit_search (α : Type) (oracle : MarkingOracle α) (oracle_args : α)
    (simulator : Simulator) :
    groverIterations 0 = 1 ∧ run_grover_search 0 oracle oracle_args simulator = [] :=
  ⟨by decide, rfl⟩

/-- Witness for C8 at a concrete input: a nonempty starting circuit. -/
theorem grover_append_only_frame_witness :
    AppendsOnly xOracle ∧
      ((∃ tail, grover_iteration [Op.h auxQubit] xOracle (searchQubits 1) ()
          = [Op.h auxQubit] ++ tail) ∧
       (∃ tail, grover_search [Op.h auxQubit] xOracle (searchQubits 1) ()
          = [Op.h auxQubit] ++ tail)) :=
  ⟨⟨fun _ target _ => [Op.x target], fun _ _ _ _ => rfl⟩,
   grover_append_only_frame xOracle
     ⟨fun _ target _ => [Op.x target], fun _ _ _ _ => rfl⟩ [Op.h auxQubit] (searchQubits 1) ()⟩

/-- The decoding loop of run_grover_search is the fold of decodeStep over
the index range. -/
theorem run_grover_search_eq_fold {α : Type} (n : ℕ) (oracle : MarkingOracle α)
    (oracle_args : α) (simulator : Simulator) :
    run_grover_search n oracle oracle_args simulator
      = (List.range n).foldl
          (decodeStep
            (fun i => (simulator (builtCircuit n oracle oracle_args) 1).histogram (qubitKey i)))
          (List.replicate n 0) := rfl

/-- decodeStep preserves the answer vector's length. -/
theorem decodeStep_length (f : ℕ → List (ℕ × ℕ)) (sol : List ℕ) (j : ℕ) :
    (decodeStep f sol j).length = sol.length := by
  rcases hfe : f j with _ | ⟨⟨state, count⟩, t⟩ <;> simp [decodeStep, hfe]

/-- Pointwise effect of one decodeStep. -/
theorem decodeStep_getElem? (f : ℕ → List (ℕ × ℕ)) (sol : List ℕ) (j i : ℕ) :
    (decodeStep f sol j)[i]?
      = if j = i ∧ f j ≠ [] then (if j < sol.length then some (headState (f j)) else none)
        else sol[i]? := by
  rcases hfe : f j with _ | ⟨⟨state, count⟩, t⟩
  · simp [decodeStep, hfe]
  · simp [decodeStep, hfe, List.getElem?_set, headState]

/-- The decoding fold preserves the answer vector's length. -/
theorem foldl_decodeStep_length (f : ℕ → List (ℕ × ℕ)) :
    ∀ (l : List ℕ) (sol : List ℕ), (l.foldl (decodeStep f) sol).length = sol.length := by
  intro l
  induction l with
  | nil => intro sol; rfl
  | cons j rest ih => intro sol; rw [List.foldl_cons, ih, decodeStep_length]

/-- Pointwise characterization of the decoding fold: an index in the
range with a nonempty histogram reads the first sampled state; any other
index keeps its incoming value. -/
theorem foldl_decodeStep_getElem? (f : ℕ → List (ℕ × ℕ)) :
    ∀ (l : List ℕ) (sol : List ℕ) (i : ℕ),
    (l.foldl (decodeStep f) sol)[i]?
      = if i ∈ l ∧ f i ≠ [] then (if i < sol.length then some (headState (f i)) else none)
        else sol[i]? := by
  intro l
  induction l with
  | nil => intro sol i; simp
  | cons j rest ih =>
      intro sol i
      rw [List.foldl_cons, ih, decodeStep_length, decodeStep_getElem?]
      by_cases h1 : i ∈ rest <;> by_cases h2 : f i = [] <;> by_cases h3 : j = i <;>
        simp_all [List.mem_cons, eq_comm]

/-- Pointwise characterization of run_grover_search's output: below n,
index i holds the first sampled state under key qubit{i} (or the default
0 when that histogram is empty); there is no index at or beyond n. -/
theorem run_grover_search_getElem? {α : Type} (n : ℕ) (oracle : MarkingOracle α)
    (oracle_args : α) (simulator : Simulator) (i : ℕ) :
    (run_grover_search n oracle oracle_args simulator)[i]?
      = if i < n
        then some (headState
          ((simulator (builtCircuit n oracle oracle_args) 1).histogram (qubitKey i)))
        else none := by
  rw [run_grover_search_eq_fold, foldl_decodeStep_getElem?]
  by_cases h1 : i < n
  · by_cases h2 :
      (simulator (builtCircuit n oracle oracle_args) 1).histogram (qubitKey i) = []
    · simp [h1, h2, headState]
    · simp [h1, h2]
  · simp [h1]
    omega

/-- The answer vector always has exactly n entries. -/
theorem run_grover_search_length {α : Type} (n : ℕ) (oracle : MarkingOracle α)
    (oracle_args : α) (simulator : Simulator) :
    (run_grover_search n oracle oracle_args simulator).length = n := by
  rw [run_grover_search_eq_fold, foldl_decodeStep_length]
  exact List.length_replicate n 0

/-- C6: run_grover_search submits the completed circuit to the execution
collaborator requesting exactly one trial: its result depends only on the
collaborator's response to that single query with trial count 1, and for
each qubit's measurement tag the single sampled outcome of that one trial
(the first histogram entry) becomes the corresponding output bit. -/
theorem run_grover_search_single_trial {α : Type} (n : ℕ) (oracle : MarkingOracle α)
    (oracle_args : α) (sim sim' : Simulator)
    (h : sim (builtCircuit n oracle oracle_args) 1 = sim' (builtCircuit n oracle oracle_args) 1) :
    run_grover_search n oracle oracle_args sim = run_grover_search n oracle oracle_args sim' ∧
    ∀ i state count rest, i < n →
      (sim (builtCircuit n oracle oracle_args) 1).histogram (qubitKey i)
        = (state, count) :: rest →
      (run_grover_search n oracle oracle_args sim)[i]? = some state := by
  constructor
  · unfold run_grover_search
    rw [h]
  · intro i state count rest hi hh
    rw [run_grover_search_getElem?, if_pos hi, hh]
    rfl

/-- Witness for C6 at a concrete input: one qubit, a collaborator whose
single trial samples outcome 1 for every tag. -/
theorem run_grover_search_single_trial_witness :
    run_grover_search 1 xOracle () (constHistSim [(1, 1)])
        = run_grover_search 1 xOracle () (constHistSim [(1, 1)]) ∧
      (run_grover_search 1 xOracle () (constHistSim [(1, 1)]))[0]? = some 1 :=
  ⟨(run_grover_search_single_trial 1 xOracle () (constHistSim [(1, 1)])
      (constHistSim [(1, 1)]) rfl).1,
   (run_grover_search_single_trial 1 xOracle () (constHistSim [(1, 1)])
      (constHistSim [(1, 1)]) rfl).2 0 1 1 [] (by decide) rfl⟩

/-- C7: for every register size n, oracle, oracle arguments and
collaborator, run_grover_search returns a bit vector of length exactly n,
whose entry at each index i below n is decoded from the sampled outcome
under the measurement key qubit{i} of register qubit i. -/
theorem run_grover_search_contract {α : Type} (n : ℕ) (oracle : MarkingOracle α)
    (oracle_args : α) (simulator : Simulator) :
    (run_grover_search n oracle oracle_args simulator).length = n ∧
    ∀ i, i < n →
      (run_grover_search n oracle oracle_args simulator)[i]?
        = some (headState
            ((simulator (builtCircuit n oracle oracle_args) 1).histogram (qubitKey i))) := by
  refine ⟨run_grover_search_length n oracle oracle_args simulator, ?_⟩
  intro i hi
  rw [run_grover_search_getElem?, if_pos hi]

/-- Witness for C7 at a concrete input. -/
theorem run_grover_search_contract_witness :
    (run_grover_search 1 xOracle () (constHistSim [(1, 1)])).length = 1 ∧
      0 < 1 ∧
      (run_grover_search 1 xOracle () (constHistSim [(1, 1)]))[0]?
        = some (headState
            ((constHistSim [(1, 1)] (builtCircuit 1 xOracle ()) 1).histogram (qubitKey 0))) :=
  ⟨(run_grover_search_contract 1 xOracle () (constHistSim [(1, 1)])).1,
   by decide,
   (run_grover_search_contract 1 xOracle () (constHistSim [(1, 1)])).2 0 (by decide)⟩

/-- C9: when the execution result has no sampled outcome for the tag of
some qubit below n, run_grover_search does not fail: the corresponding
output index keeps the pre-initialized default 0 (the answer vector is
initialized to all zeros and only overwritten by a first histogram
entry). -/
theorem run_grover_search_missing_tag {α : Type} (n : ℕ) (oracle : MarkingOracle α)
    (oracle_args : α) (simulator : Simulator) (i : ℕ) (hi : i < n)
    (h : (simulator (builtCircuit n oracle oracle_args) 1).histogram (qubitKey i) = []) :
    (run_grover_search n oracle oracle_args simulator)[i]? = some 0 := by
  rw [run_grover_search_getElem?, if_pos hi, h]
  rfl

/-- Witness for C9 at a concrete input: a collaborator returning an empty
histogram for every tag. -/
theorem run_grover_search_missing_tag_witness :
    0 < 1 ∧ (run_grover_search 1 xOracle () (constHistSim []))[0]? = some 0 :=
  ⟨by decide, run_grover_search_missing_tag 1 xOracle () (constHistSim []) 0 (by decide) rfl⟩

/-- C10: every call allocates the register as the qubits named
qubit0 .. qubit(n-1) in register order, the circuit's measurement segment
measures exactly those qubits in the same order, and output index i is
decoded from the histogram under the measurement key equal to register
qubit i's name, so output index i always corresponds to register
position i.  (In the embedding run_grover_search is a pure function of
its arguments: each call builds its circuit from scratch and performs one
collaborator query, sharing no state with other calls.) -/
theorem run_grover_search_naming {α : Type} (n : ℕ) (oracle : MarkingOracle α)
    (oracle_args : α) (simulator : Simulator) :
    ∀ i, i < n → ∃ q : Qubit,
      (searchQubits n)[i]? = some q ∧
      q.name = qubitKey i ∧
      (measure_each (searchQubits n))[i]? = some (Op.measure q) ∧
      (run_grover_search n oracle oracle_args simulator)[i]?
        = some (headState
            ((simulator (builtCircuit n oracle oracle_args) 1).histogram q.name)) := by
  intro i hi
  refine ⟨Qubit.mk (qubitKey i), ?_, rfl, ?_, ?_⟩
  · simp [searchQubits, namedQubitRange, List.getElem?_range hi, qubitKey]
  · simp [measure_each, searchQubits, namedQubitRange, List.getElem?_range hi, qubitKey]
  · rw [run_grover_search_getElem?, if_pos hi]

/-- Witness for C10 at a concrete input. -/
theorem run_grover_search_naming_witness :
    0 < 1 ∧ ∃ q : Qubit,
      (searchQubits 1)[0]? = some q ∧
      q.name = qubitKey 0 ∧
      (measure_each (searchQubits 1))[0]? = some (Op.measure q) ∧
      (run_grover_search 1 xOracle () (constHistSim [(1, 1)]))[0]?
        = some (headState
            ((constHistSim [(1, 1)] (builtCircuit 1 xOracle ()) 1).histogram q.name)) :=
  ⟨by decide, run_grover_search_naming 1 xOracle () (constHistSim [(1, 1)]) 0 (by decide)⟩

/-- The pair representation of amplitudes is faithful: interpreting
(a, b) as the real number a + b * sqrt 2, ampInvSqrt2 is division by
sqrt 2. -/
theorem ampInvSqrt2_faithful (u : Amp) :
    ((ampInvSqrt2 u).1 : ℝ) + ((ampInvSqrt2 u).2 : ℝ) * Real.sqrt 2
      = ((u.1 : ℝ) + (u.2 : ℝ) * Real.sqrt 2) / Real.sqrt 2 := by
  have h2 : Real.sqrt 2 ≠ 0 := by positivity
  have hsq : Real.sqrt 2 * Real.sqrt 2 = 2 := Real.mul_self_sqrt (by norm_num)
  rw [eq_div_iff h2, ampInvSqrt2]
  push_cast
  ring_nf
  rw [Real.sq_sqrt (by norm_num)]
  ring

/-- C3 (adapter modelled from the spec): for every marking predicate and
every register state with the freshly allocated auxiliary qubit in its
zero state, the net effect of the operation sequence the Oracle Adapter
appends (flip the auxiliary qubit, superpose it, apply the marking oracle
with the auxiliary qubit as flip target, unsuperpose, unflip) negates the
amplitude of exactly the register basis states the marking oracle flags,
leaves every other amplitude unchanged, and returns the auxiliary qubit
to its initial zero state, unentangled from the register (the joint state
is again a product with the auxiliary qubit in state zero). -/
theorem adapter_phase_kickback {ν : Type} (f : ν → Bool) (psi : ν → Amp) :
    adapterNet (markingSem f) (withFreshAux psi)
      = withFreshAux (fun x => if f x then ampNeg (psi x) else psi x) := by
  funext x b
  cases b <;> cases hf : f x <;>
    simp [adapterNet, markingSem, applyXaux, applyHaux, withFreshAux, hf,
      ampInvSqrt2, ampAdd, ampNeg, ampZero, Prod.ext_iff] <;>
    ring

end Grover
